import Mathlib

/-!
# command-parser: the `commandline` header

A shallow embedding of `include/commandline.hpp`: the option descriptor, the
lookup helper `find_option`, and the `parser` class with its single scan pass
`parse` and its three queries.

Modelling conventions.

* `argv` is a `List String` and `argc` is its length.
* `argument_count` is an `int` in the source and an `Int` here.  The sum
  `i + 1 + argument_count` of line 100 is a 32-bit `int`: `i + 1` is positive,
  so the sum cannot fall below `INT_MIN`, and a sum above `INT_MAX` wraps
  around modulo `2^32` (`int_sum`).
* The cursors `i` and `j` start at `1` and `i + 1` and only grow, so they are
  natural numbers.
* `assert` in `add_option` is modelled as active: a failed assertion aborts
  construction, which makes `add_option`, `parse` and the constructor return
  `none`.
* The two `for` loops are structurally recursive on a fuel argument; the
  constructor supplies `argc` as fuel, which is shown to be enough.
-/

set_option autoImplicit false

namespace commandline

/-- The exception thrown by the two argument queries (lines 17-32). -/
structure option_not_found_exception where
  message : String
  option_name : String
deriving DecidableEq, Repr

/-- The option descriptor, class `option` (lines 34-73). -/
structure option where
  name : String
  short_name : String
  argument_count : Int
deriving DecidableEq, Repr

/-- Constructor `option(name, argument_count)`, lines 42-45: the short name is
default-initialised to the empty string. -/
def option.mk_name_count (name : String) (argument_count : Int) : option :=
  { name := name, short_name := "", argument_count := argument_count }

/-- Constructor `option(name)`, lines 50-53. -/
def option.mk_name (name : String) : option :=
  option.mk_name_count name 0

/-- Constructor `option(name, short_name)`, lines 54-57. -/
def option.mk_name_short (name short_name : String) : option :=
  { name := name, short_name := short_name, argument_count := 0 }

/-- The predicate both lambdas use (lines 78 and 134):
`o.get_name() == name || o.get_short_name() == name`. -/
def option.matches (o : option) (name : String) : Bool :=
  o.name == name || o.short_name == name

/-- The free function `find_option`, lines 75-80: `std::find_if` over the schema;
`none` stands for `options.end()`. -/
def find_option (name : String) (options : List option) : Option option :=
  options.find? (fun o => o.matches name)

/-- The class `parser`, lines 82-184: its only data member. -/
structure parser where
  parsed_option : List (option × List String)
deriving DecidableEq, Repr

/-- The member `parser::find`, lines 130-136: `none` stands for
`parsed_option.end()`. -/
def parser.find (p : parser) (name : String) : Option (option × List String) :=
  p.parsed_option.find? (fun pair => pair.1.matches name)

/-- The member `parser::has_option`, lines 150-155. -/
def parser.has_option (p : parser) (name : String) : Bool :=
  (p.find name).isSome

/-- The member `parser::add_option`, lines 138-142.  `none` is the failed
assertion. -/
def parser.add_option (p : parser) (o : option) (values : List String) : Option parser :=
  if p.has_option o.name then none
  else some { parsed_option := p.parsed_option ++ [(o, values)] }

/-- The member `parser::get_arguments`, lines 157-169. -/
def parser.get_arguments (p : parser) (name : String) :
    Except option_not_found_exception (List String) :=
  match p.find name with
  | some it => .ok it.2
  | none => .error { message := "can't find " ++ name, option_name := name }

/-- The member `parser::get_argument_size`, lines 171-183. -/
def parser.get_argument_size (p : parser) (name : String) :
    Except option_not_found_exception Int :=
  match p.find name with
  | some it => .ok (it.2.length : Int)
  | none => .error { message := "can't find " ++ name, option_name := name }

/-- The value a 32-bit `int` holds for the sum `x` of a positive `int` and an
`int`: such a sum cannot fall below `INT_MIN`, and a sum above `INT_MAX`
wraps around modulo `2^32`. -/
def int_sum (x : Int) : Int :=
  if x > 2147483647 then (x + 2147483648) % 4294967296 - 2147483648 else x

/-- Lines 100-104 of `parse`: the exclusive end of the look-ahead window of the
option `o` matched at cursor `i`, an `int` sum, clamped to `argc`. -/
def range_end (argv : List String) (i : Nat) (o : option) : Int :=
  let range_end : Int := int_sum ((i : Int) + 1 + o.argument_count)
  if range_end > (argv.length : Int) then (argv.length : Int) else range_end

/-- Lines 108-121 of `parse`: the inner loop over `j`, started with the
`arguments` collected so far. -/
def collect_arguments (argv : List String) (options : List option) (range_end : Int) :
    Nat → Nat → List String → List String
  | 0, _, arguments => arguments
  | fuel + 1, j, arguments =>
    if (j : Int) < range_end then
      match argv[j]? with
      | none => arguments
      | some argument =>
        match find_option argument options with
        | none => collect_arguments argv options range_end fuel (j + 1) (arguments ++ [argument])
        | some _ => arguments
    else arguments

/-- Lines 98-121 of `parse`: the arguments collected for the option `o` matched
at cursor `i`. -/
def look_ahead (argv : List String) (options : List option) (i : Nat) (o : option) :
    List String :=
  collect_arguments argv options (range_end argv i o) argv.length (i + 1) []

/-- Lines 93-126 of `parse` followed by the `++i` of line 91: one iteration of
the outer loop at cursor `i`, giving the next cursor and the next parser. -/
def parse_body (argv : List String) (options : List option) (i : Nat) (p : parser) :
    Option (Nat × parser) :=
  match argv[i]? with
  | none => some (i + 1, p)
  | some current_value =>
    match find_option current_value options with
    | some o =>
      let arguments := look_ahead argv options i o
      match p.add_option o arguments with
      | none => none
      | some p1 => some (i + arguments.length + 1, p1)
    | none => some (i + 1, p)

/-- Lines 91-127 of `parse`: the outer loop from cursor `i`. -/
def parse_loop (argv : List String) (options : List option) :
    Nat → Nat → parser → Option parser
  | 0, _, p => some p
  | fuel + 1, i, p =>
    if i < argv.length then
      match parse_body argv options i p with
      | none => none
      | some (i1, p1) => parse_loop argv options fuel i1 p1
    else some p

/-- The member `parser::parse`, lines 89-128, run on the empty parser. -/
def parser.parse (argv : List String) (options : List option) : Option parser :=
  parse_loop argv options argv.length 1 { parsed_option := [] }

/-- The constructor `parser(argc, argv, options)`, lines 145-148. -/
def parser.mk_parser (argv : List String) (options : List option) : Option parser :=
  parser.parse argv options

/-- The cursor values at which the body of the outer loop of `parse` runs,
from cursor `i` on. -/
def cursor_positions (argv : List String) (options : List option) :
    Nat → Nat → parser → List Nat
  | 0, _, _ => []
  | fuel + 1, i, p =>
    if i < argv.length then
      match parse_body argv options i p with
      | none => [i]
      | some (i1, p1) => i :: cursor_positions argv options fuel i1 p1
    else []

/-- The positions the scan of `parse` reaches. -/
def scan_positions (argv : List String) (options : List option) : List Nat :=
  cursor_positions argv options argv.length 1 { parsed_option := [] }


/-! ## Reference descriptions used in the statements -/

/-- The test applied to a look-ahead token at line 113: it matches no
descriptor. -/
def unmatched (options : List option) (token : String) : Bool :=
  (find_option token options).isNone

/-- The width of the look-ahead window of the option `o` matched at cursor
`i`, before the clamp to `argc`: `argument_count` when the sum of line 100 does
not overflow. -/
def look_ahead_count (i : Nat) (o : option) : Nat :=
  (int_sum ((i : Int) + 1 + o.argument_count) - ((i : Int) + 1)).toNat

/-- The closed form of `look_ahead`: the longest run of unmatched tokens at
the front of the `look_ahead_count` tokens that follow index `i`. -/
def window (argv : List String) (options : List option) (i : Nat) (o : option) :
    List String :=
  ((argv.drop (i + 1)).take (look_ahead_count i o)).takeWhile (unmatched options)

/-- The entry the scan records when its cursor is at index `i`, if the token
there matches a descriptor. -/
def entry_at (argv : List String) (options : List option) (i : Nat) :
    Option (option × List String) :=
  match argv[i]? with
  | none => none
  | some t => (find_option t options).map (fun o => (o, look_ahead argv options i o))

/-- Registering a list of entries one after the other with `add_option`. -/
def add_all : parser → List (option × List String) → Option parser
  | p, [] => some p
  | p, e :: es =>
    match p.add_option e.1 e.2 with
    | none => none
    | some p1 => add_all p1 es

/-- The entries of all indices from `i` up to the end of the input. -/
def entries_from (argv : List String) (options : List option) (i : Nat) :
    List (option × List String) :=
  (List.range' i (argv.length - i)).filterMap (entry_at argv options)

/-- What the assertion of `add_option` maintains: no entry matches, by name or
short name, the name of an entry registered after it. -/
def registration_order (l : List (option × List String)) : Prop :=
  l.Pairwise (fun e1 e2 => e1.1.matches e2.1.name = false)

/-- The descriptors of the result set, in order. -/
def parser.descriptors (p : parser) : List option :=
  p.parsed_option.map Prod.fst

/-- The input `argv` with the token `u` inserted at index `k`; an index past
the end of `argv` puts the token at the end. -/
def insert_token (argv : List String) (k : Nat) (u : String) : List String :=
  argv.take k ++ u :: argv.drop k

/-- The number of tokens the result set accounts for: one per entry plus the
captured arguments of every entry. -/
def parser.used_tokens (p : parser) : Nat :=
  p.parsed_option.length + (p.parsed_option.map (fun e => e.2.length)).sum

/-- The scan of `parse` with the cursor jump of line 125 left out: one
iteration at cursor `i` always moves the cursor to `i + 1`. -/
def parse_body_one (argv : List String) (options : List option) (i : Nat) (p : parser) :
    Option (Nat × parser) :=
  match argv[i]? with
  | none => some (i + 1, p)
  | some current_value =>
    match find_option current_value options with
    | some o =>
      match p.add_option o (look_ahead argv options i o) with
      | none => none
      | some p1 => some (i + 1, p1)
    | none => some (i + 1, p)

/-- The outer loop over `parse_body_one`. -/
def parse_loop_one (argv : List String) (options : List option) :
    Nat → Nat → parser → Option parser
  | 0, _, p => some p
  | fuel + 1, i, p =>
    if i < argv.length then
      match parse_body_one argv options i p with
      | none => none
      | some (i1, p1) => parse_loop_one argv options fuel i1 p1
    else some p

/-- The scan that advances the cursor by exactly one token per iteration. -/
def parser.parse_one (argv : List String) (options : List option) : Option parser :=
  parse_loop_one argv options argv.length 1 { parsed_option := [] }

/-- Modelled from the spec: the class declaration of `line_option`, in
`line_option.hpp`, is not among the sources.  Its data members are the ones
the constructors of `line_option.cpp` initialise; `name` and `short_name` are
pairs of strings, the prefix first, as `std::make_pair(prefix, name)` builds
them. -/
structure line_option where
  name : String × String
  short_name : String × String
  argument_count : Int
deriving DecidableEq, Repr

/-- Constructor `line_option(name_pair name, int argument_count)`, lines 3-6:
`short_name` is not in the initialiser list and is default-constructed, a pair
of empty strings. -/
def line_option.of_pair (name : String × String) (argument_count : Int) : line_option :=
  { name := name, short_name := ("", ""), argument_count := argument_count }

/-- Constructor `line_option(prefix, name, argument_count)`, lines 8-11. -/
def line_option.of_strings (prefix_ name : String) (argument_count : Int) : line_option :=
  line_option.of_pair (prefix_, name) argument_count

/-- Constructor `line_option(name_pair name, name_pair short_name, int
argument_count)`, lines 13-16. -/
def line_option.of_pairs (name short_name : String × String) (argument_count : Int) :
    line_option :=
  { name := name, short_name := short_name, argument_count := argument_count }

/-- Constructor `line_option(prefix, name, short_prefix, short_name,
argument_count)`, lines 18-22. -/
def line_option.of_strings_short (prefix_ name short_prefix_ short_name : String)
    (argument_count : Int) : line_option :=
  line_option.of_pairs (prefix_, name) (short_prefix_, short_name) argument_count

/-- Accessor `get_prefix`, lines 24-27. -/
def line_option.get_prefix (o : line_option) : String :=
  o.name.1

/-- Accessor `get_name`, lines 29-32. -/
def line_option.get_name (o : line_option) : String :=
  o.name.2

/-- Accessor `get_short_prefix`, lines 34-37. -/
def line_option.get_short_prefix (o : line_option) : String :=
  o.short_name.1

/-- Accessor `get_short_name`, lines 39-42. -/
def line_option.get_short_name (o : line_option) : String :=
  o.short_name.2

/-- Accessor `get_real_name`, lines 44-47. -/
def line_option.get_real_name (o : line_option) : String :=
  o.name.1 ++ o.name.2

/-- Accessor `get_real_short_name`, lines 49-52. -/
def line_option.get_real_short_name (o : line_option) : String :=
  o.short_name.1 ++ o.short_name.2

/-- Accessor `get_argument_count`, lines 54-57. -/
def line_option.get_argument_count (o : line_option) : Int :=
  o.argument_count

/-! ## The inner loop -/

theorem collect_arguments_eq (argv : List String) (options : List option) (re : Int)
    (hre : re ≤ (argv.length : Int)) :
    ∀ (fuel j : Nat) (acc : List String), (re - (j : Int)).toNat ≤ fuel →
      collect_arguments argv options re fuel j acc =
        acc ++ ((argv.drop j).take (re - (j : Int)).toNat).takeWhile (unmatched options) := by
  intro fuel
  induction fuel with
  | zero =>
    intro j acc h
    have h0 : (re - (j : Int)).toNat = 0 := by omega
    simp [collect_arguments, h0]
  | succ fuel ih =>
    intro j acc h
    unfold collect_arguments
    by_cases hj : (j : Int) < re
    · have hlt : j < argv.length := by omega
      have hn : (re - (j : Int)).toNat = (re - ((j + 1 : Nat) : Int)).toNat + 1 := by omega
      rw [if_pos hj, List.getElem?_eq_getElem hlt]
      simp only []
      rw [List.drop_eq_getElem_cons hlt, hn, List.take_succ_cons]
      cases hf : find_option argv[j] options with
      | none =>
        simp only []
        rw [ih (j + 1) (acc ++ [argv[j]]) (by omega)]
        simp [List.takeWhile_cons, unmatched, hf]
      | some o =>
        simp [List.takeWhile_cons, unmatched, hf]
    · have h0 : (re - (j : Int)).toNat = 0 := by omega
      simp [hj, h0]

theorem int_sum_le (x : Int) : int_sum x ≤ x := by
  unfold int_sum
  split <;> omega

/-- From `INT_MIN` on, `int_sum` is the two's-complement wrap-around to 32
bits. -/
theorem int_sum_eq_wrap (x : Int) (h : -2147483648 ≤ x) :
    int_sum x = (x + 2147483648) % 4294967296 - 2147483648 := by
  unfold int_sum
  split <;> omega

theorem look_ahead_count_le (i : Nat) (o : option) :
    look_ahead_count i o ≤ o.argument_count.toNat := by
  unfold look_ahead_count
  have h := int_sum_le ((i : Int) + 1 + o.argument_count)
  omega

theorem look_ahead_eq_window (argv : List String) (options : List option) (i : Nat)
    (o : option) : look_ahead argv options i o = window argv options i o := by
  unfold look_ahead window look_ahead_count
  rw [collect_arguments_eq argv options (range_end argv i o)
    (by unfold range_end; simp only []; split <;> omega) _ _ _
    (by unfold range_end; simp only []; split <;> omega)]
  simp only [List.nil_append]
  congr 1
  apply List.ext_getElem?
  intro k
  simp only [List.getElem?_take, List.getElem?_drop]
  unfold range_end
  simp only []
  generalize int_sum ((i : Int) + 1 + o.argument_count) = s
  by_cases hk : i + 1 + k < argv.length
  · split <;> split <;> split <;> first | rfl | omega
  · rw [List.getElem?_eq_none (by omega)]
    simp

theorem window_unmatched (argv : List String) (options : List option) (i : Nat) (o : option)
    (a : String) (ha : a ∈ window argv options i o) : find_option a options = none := by
  have h := List.mem_takeWhile_imp ha
  simpa [unmatched] using h

theorem window_initial (argv : List String) (options : List option) (i : Nat) (o : option) :
    window argv options i o <+: argv.drop (i + 1) :=
  ( List.takeWhile_prefix _).trans ( List.take_prefix _ _)

theorem window_length_le_count (argv : List String) (options : List option) (i : Nat)
    (o : option) : (window argv options i o).length ≤ o.argument_count.toNat := by
  have h := ( List.takeWhile_prefix (unmatched options)
    (l := (argv.drop (i + 1)).take (look_ahead_count i o))).length_le
  have h2 := List.length_take_le (look_ahead_count i o) (argv.drop (i + 1))
  exact (h.trans h2).trans (look_ahead_count_le i o)

theorem window_length_le_rest (argv : List String) (options : List option) (i : Nat)
    (o : option) : (window argv options i o).length ≤ argv.length - (i + 1) := by
  have h := (window_initial argv options i o).length_le
  simpa using h

theorem window_getElem (argv : List String) (options : List option) (i : Nat) (o : option)
    (k : Nat) (hk : k < (window argv options i o).length) :
    ∃ a, argv[i + 1 + k]? = some a ∧ find_option a options = none := by
  obtain ⟨r, hr⟩ := window_initial argv options i o
  refine ⟨(window argv options i o)[k], ?_, ?_⟩
  · have h1 : (argv.drop (i + 1))[k]? = some (window argv options i o)[k] := by
      rw [← hr, List.getElem?_append_left hk, List.getElem?_eq_getElem hk]
    simpa [List.getElem?_drop] using h1
  · exact window_unmatched argv options i o _ (List.getElem_mem hk)

/-! ## The outer loop -/

theorem entries_from_none (argv : List String) (options : List option) (i : Nat)
    (h : entry_at argv options i = none) :
    entries_from argv options i = entries_from argv options (i + 1) := by
  unfold entries_from
  by_cases hi : i < argv.length
  · have hn : argv.length - i = (argv.length - (i + 1)) + 1 := by omega
    rw [hn, List.range'_succ, List.filterMap_cons, h]
  · have h1 : argv.length - i = 0 := by omega
    have h2 : argv.length - (i + 1) = 0 := by omega
    rw [h1, h2]
    rfl

theorem entry_at_lt (argv : List String) (options : List option) (i : Nat)
    (e : option × List String) (h : entry_at argv options i = some e) : i < argv.length := by
  by_contra hi
  have : argv[i]? = none := List.getElem?_eq_none (by omega)
  simp [entry_at, this] at h

theorem entries_from_some (argv : List String) (options : List option) (i : Nat)
    (e : option × List String) (h : entry_at argv options i = some e) :
    entries_from argv options i = e :: entries_from argv options (i + 1) := by
  have hi := entry_at_lt argv options i e h
  unfold entries_from
  have hn : argv.length - i = (argv.length - (i + 1)) + 1 := by omega
  rw [hn, List.range'_succ, List.filterMap_cons, h]

theorem entries_from_skip (argv : List String) (options : List option) (i : Nat) (o : option) :
    ∀ k, k ≤ (window argv options i o).length →
      entries_from argv options (i + 1) = entries_from argv options (i + 1 + k) := by
  intro k
  induction k with
  | zero => intro _; rfl
  | succ k ih =>
    intro hk
    rw [ih (by omega)]
    obtain ⟨a, ha, hf⟩ := window_getElem argv options i o k (by omega)
    exact entries_from_none argv options (i + 1 + k) (by simp [entry_at, ha, hf])

theorem parse_loop_eq (argv : List String) (options : List option) :
    ∀ (fuel i : Nat) (p : parser), argv.length - i ≤ fuel →
      parse_loop argv options fuel i p = add_all p (entries_from argv options i) := by
  intro fuel
  induction fuel with
  | zero =>
    intro i p h
    have h0 : argv.length - i = 0 := by omega
    simp [parse_loop, entries_from, h0, add_all]
  | succ fuel ih =>
    intro i p h
    unfold parse_loop
    by_cases hi : i < argv.length
    · rw [if_pos hi]
      unfold parse_body
      rw [List.getElem?_eq_getElem hi]
      simp only []
      cases hf : find_option argv[i] options with
      | none =>
        simp only []
        rw [ih (i + 1) p (by omega),
          entries_from_none argv options i (by simp [entry_at, List.getElem?_eq_getElem hi, hf])]
      | some o =>
        simp only []
        rw [entries_from_some argv options i (o, look_ahead argv options i o)
          (by simp [entry_at, List.getElem?_eq_getElem hi, hf])]
        unfold add_all
        simp only []
        cases ha : p.add_option o (look_ahead argv options i o) with
        | none => rfl
        | some p1 =>
          simp only []
          rw [ih _ p1 (by omega)]
          have hs := entries_from_skip argv options i o (look_ahead argv options i o).length
            (by rw [look_ahead_eq_window])
          rw [hs]
          congr 2
          omega
    · have h0 : argv.length - i = 0 := by omega
      simp [hi, entries_from, h0, add_all]

/-- The scan, in closed form: the constructor registers, in input order, the
entry of every index from `1` on whose token matches a descriptor. -/
theorem parse_eq (argv : List String) (options : List option) :
    parser.parse argv options = add_all { parsed_option := [] } (entries_from argv options 1) :=
  parse_loop_eq argv options argv.length 1 _ (by omega)

/-- More fuel than `argc - i` does not change what the outer loop returns. -/
theorem parse_loop_fuel (argv : List String) (options : List option) (fuel i : Nat)
    (p : parser) (h : argv.length - i ≤ fuel) :
    parse_loop argv options fuel i p = parse_loop argv options (argv.length - i) i p := by
  rw [parse_loop_eq argv options fuel i p h, parse_loop_eq argv options _ i p (le_refl _)]

/-! ## Registration -/

theorem has_option_iff_mem (p : parser) (n : String) :
    p.has_option n = true ↔ ∃ e ∈ p.parsed_option, e.1.matches n = true := by
  simp [parser.has_option, parser.find, List.find?_isSome]

theorem has_option_false_iff (p : parser) (n : String) :
    p.has_option n = false ↔ ∀ e ∈ p.parsed_option, e.1.matches n = false := by
  rw [← Bool.not_eq_true, has_option_iff_mem]
  simp

theorem matches_self (o : option) : o.matches o.name = true := by
  simp [option.matches]

theorem add_option_some (p p1 : parser) (o : option) (values : List String)
    (h : p.add_option o values = some p1) :
    p.has_option o.name = false ∧ p1.parsed_option = p.parsed_option ++ [(o, values)] := by
  unfold parser.add_option at h
  by_cases hh : p.has_option o.name = true
  · simp [hh] at h
  · simp only [hh] at h
    simp only [Bool.false_eq_true, if_false, Option.some.injEq] at h
    subst h
    exact ⟨by simpa using hh, rfl⟩

theorem add_option_of_mem (p : parser) (o : option) (values values1 : List String)
    (h : (o, values1) ∈ p.parsed_option) : p.add_option o values = none := by
  have hh : p.has_option o.name = true :=
    (has_option_iff_mem p o.name).2 ⟨(o, values1), h, matches_self o⟩
  simp [parser.add_option, hh]

theorem add_all_parsed (es : List (option × List String)) :
    ∀ (p p1 : parser), add_all p es = some p1 → p1.parsed_option = p.parsed_option ++ es := by
  induction es with
  | nil =>
    intro p p1 h
    simp only [add_all, Option.some.injEq] at h
    simp [h]
  | cons e es ih =>
    intro p p1 h
    unfold add_all at h
    cases ha : p.add_option e.1 e.2 with
    | none => simp [ha] at h
    | some p2 =>
      simp only [ha] at h
      rw [ih p2 p1 h, (add_option_some p p2 e.1 e.2 ha).2]
      simp

theorem add_all_order (es : List (option × List String)) :
    ∀ (p p1 : parser), add_all p es = some p1 → registration_order p.parsed_option →
      registration_order p1.parsed_option := by
  induction es with
  | nil =>
    intro p p1 h hd
    simp only [add_all, Option.some.injEq] at h
    rw [← h]
    exact hd
  | cons e es ih =>
    intro p p1 h hd
    unfold add_all at h
    cases ha : p.add_option e.1 e.2 with
    | none => simp [ha] at h
    | some p2 =>
      simp only [ha] at h
      obtain ⟨hf, hp2⟩ := add_option_some p p2 e.1 e.2 ha
      apply ih p2 p1 h
      unfold registration_order
      rw [hp2, List.pairwise_append]
      refine ⟨hd, List.pairwise_singleton _ _, ?_⟩
      intro a ha1 b hb
      simp only [List.mem_singleton] at hb
      subst hb
      exact (has_option_false_iff p e.1.name).1 hf a ha1

theorem parse_order (argv : List String) (options : List option) (p : parser)
    (h : parser.parse argv options = some p) : registration_order p.parsed_option := by
  rw [parse_eq] at h
  exact add_all_order _ _ p h List.Pairwise.nil

theorem find_eq_of_mem (l : List (option × List String)) (n : String)
    (e : option × List String) (ho : registration_order l) (he : e ∈ l)
    (hm : e.1.matches n = true)
    (hall : ∀ e1 ∈ l, e1.1.matches n = true → e1.1.matches e.1.name = true) :
    l.find? (fun pair => pair.1.matches n) = some e := by
  obtain ⟨s, t, hst⟩ := List.append_of_mem he
  rw [List.find?_eq_some]
  refine ⟨hm, s, t, hst, ?_⟩
  intro a ha
  unfold registration_order at ho
  rw [hst, List.pairwise_append] at ho
  have h1 := ho.2.2 a ha e (List.mem_cons_self _ _)
  have hal : a ∈ l := by rw [hst]; exact List.mem_append_left _ ha
  cases hma : a.1.matches n with
  | false => rfl
  | true =>
    rw [hall a hal hma] at h1
    exact Bool.noConfusion h1

theorem parse_ok_entries (argv : List String) (options : List option) (p : parser)
    (h : parser.parse argv options = some p) :
    p.parsed_option = entries_from argv options 1 := by
  rw [parse_eq] at h
  simpa using add_all_parsed _ _ _ h

theorem mem_entries_from (argv : List String) (options : List option) (i : Nat)
    (e : option × List String) :
    e ∈ entries_from argv options i ↔ ∃ k, i ≤ k ∧ entry_at argv options k = some e := by
  unfold entries_from
  rw [List.mem_filterMap]
  constructor
  · rintro ⟨k, hk, he⟩
    rw [List.mem_range'_1] at hk
    exact ⟨k, hk.1, he⟩
  · rintro ⟨k, hk, he⟩
    have hlt := entry_at_lt argv options k e he
    exact ⟨k, by rw [List.mem_range'_1]; omega, he⟩

theorem entry_at_eq_some (argv : List String) (options : List option) (k : Nat)
    (e : option × List String) :
    entry_at argv options k = some e ↔
      ∃ t, argv[k]? = some t ∧ find_option t options = some e.1 ∧
        e.2 = look_ahead argv options k e.1 := by
  unfold entry_at
  cases ht : argv[k]? with
  | none => simp
  | some t =>
    cases hf : find_option t options with
    | none => simp [hf]
    | some o =>
      obtain ⟨o1, a1⟩ := e
      simp only [Option.map_some', Option.some.injEq, Prod.mk.injEq, exists_eq_left', hf]
      constructor
      · rintro ⟨rfl, rfl⟩
        exact ⟨rfl, rfl⟩
      · rintro ⟨rfl, rfl⟩
        exact ⟨rfl, rfl⟩

theorem find_option_mem (t : String) (options : List option) (o : option)
    (h : find_option t options = some o) : o ∈ options ∧ o.matches t = true := by
  unfold find_option at h
  exact ⟨List.mem_of_find?_eq_some h, by simpa using List.find?_some h⟩

/-! ## The cursor -/

theorem parse_body_cursor (argv : List String) (options : List option) (i i1 : Nat)
    (p p1 : parser) (h : parse_body argv options i p = some (i1, p1)) :
    i < i1 ∧ ∀ k, i < k → k < i1 → ∃ a, argv[k]? = some a ∧ find_option a options = none := by
  unfold parse_body at h
  cases ht : argv[i]? with
  | none =>
    simp only [ht, Option.some.injEq, Prod.mk.injEq] at h
    exact ⟨by omega, fun k h1 h2 => by omega⟩
  | some t =>
    simp only [ht] at h
    cases hf : find_option t options with
    | none =>
      simp only [hf, Option.some.injEq, Prod.mk.injEq] at h
      exact ⟨by omega, fun k h1 h2 => by omega⟩
    | some o =>
      simp only [hf] at h
      cases ha : p.add_option o (look_ahead argv options i o) with
      | none => simp [ha] at h
      | some p2 =>
        simp only [ha, Option.some.injEq, Prod.mk.injEq] at h
        refine ⟨by omega, fun k h1 h2 => ?_⟩
        have hk : k - (i + 1) < (window argv options i o).length := by
          rw [← look_ahead_eq_window]; omega
        have hw := window_getElem argv options i o (k - (i + 1)) hk
        have hkk : i + 1 + (k - (i + 1)) = k := by omega
        rwa [hkk] at hw

theorem cursor_positions_reach (argv : List String) (options : List option) :
    ∀ (fuel i : Nat) (p p1 : parser), argv.length - i ≤ fuel →
      parse_loop argv options fuel i p = some p1 →
      ∀ k t o, i ≤ k → argv[k]? = some t → find_option t options = some o →
        k ∈ cursor_positions argv options fuel i p := by
  intro fuel
  induction fuel with
  | zero =>
    intro i p p1 hfuel _ k t o hik ht _
    have hlt : k < argv.length := by
      by_contra hc
      rw [List.getElem?_eq_none (by omega)] at ht
      exact Option.noConfusion ht
    omega
  | succ fuel ih =>
    intro i p p1 hfuel hloop k t o hik ht hf
    have hlt : k < argv.length := by
      by_contra hc
      rw [List.getElem?_eq_none (by omega)] at ht
      exact Option.noConfusion ht
    have hi : i < argv.length := by omega
    unfold parse_loop at hloop
    unfold cursor_positions
    rw [if_pos hi] at hloop ⊢
    cases hb : parse_body argv options i p with
    | none => simp [hb] at hloop
    | some r =>
      obtain ⟨i1, p2⟩ := r
      simp only [hb] at hloop ⊢
      obtain ⟨hlt1, hskip⟩ := parse_body_cursor argv options i i1 p p2 hb
      by_cases hki : k = i
      · simp [hki]
      · have hge : i1 ≤ k := by
          by_contra hc
          obtain ⟨a, ha, hna⟩ := hskip k (by omega) (by omega)
          rw [ht] at ha
          cases ha
          rw [hf] at hna
          exact Option.noConfusion hna
        exact List.mem_cons_of_mem _ (ih i1 p2 p1 (by omega) hloop k t o hge ht hf)

theorem scan_positions_reach (argv : List String) (options : List option) (p : parser)
    (h : parser.parse argv options = some p) (k : Nat) (t : String) (o : option)
    (hk : 1 ≤ k) (ht : argv[k]? = some t) (hf : find_option t options = some o) :
    k ∈ scan_positions argv options :=
  cursor_positions_reach argv options argv.length 1 _ p (by omega) h k t o hk ht hf

theorem matches_iff (o : option) (n : String) :
    o.matches n = true ↔ o.name = n ∨ o.short_name = n := by
  simp [option.matches]

theorem entries_from_nil (argv : List String) (options : List option) (i : Nat)
    (hu : ∀ a ∈ argv.drop i, find_option a options = none) :
    entries_from argv options i = [] := by
  rw [List.eq_nil_iff_forall_not_mem]
  intro e he
  obtain ⟨k, hk, hek⟩ := (mem_entries_from argv options i e).1 he
  obtain ⟨t, ht, hf, _⟩ := (entry_at_eq_some argv options k e).1 hek
  have hmem : t ∈ argv.drop i := by
    rw [List.mem_iff_getElem?]
    refine ⟨k - i, ?_⟩
    rw [List.getElem?_drop]
    have : i + (k - i) = k := by omega
    rw [this, ht]
  rw [hu t hmem] at hf
  exact Option.noConfusion hf

theorem entries_from_split (argv : List String) (options : List option) (i k : Nat)
    (hik : i ≤ k) (hk : k ≤ argv.length) :
    entries_from argv options i =
      (List.range' i (k - i)).filterMap (entry_at argv options) ++ entries_from argv options k := by
  obtain ⟨d, rfl⟩ : ∃ d, k = i + d := ⟨k - i, by omega⟩
  unfold entries_from
  rw [← List.filterMap_append, Nat.add_sub_cancel_left, List.range'_append_1]
  congr 2
  omega

theorem mem_parsed_of_token (argv : List String) (options : List option) (p : parser)
    (h : parser.parse argv options = some p) (i : Nat) (t : String) (o : option)
    (hi : 1 ≤ i) (ht : argv[i]? = some t) (hf : find_option t options = some o) :
    (o, look_ahead argv options i o) ∈ p.parsed_option := by
  rw [parse_ok_entries argv options p h]
  exact (mem_entries_from argv options 1 _).2
    ⟨i, hi, (entry_at_eq_some argv options i _).2 ⟨t, ht, hf, rfl⟩⟩

theorem mem_parsed_elim (argv : List String) (options : List option) (p : parser)
    (h : parser.parse argv options = some p) (e : option × List String)
    (he : e ∈ p.parsed_option) :
    ∃ k t, 1 ≤ k ∧ argv[k]? = some t ∧ find_option t options = some e.1 ∧
      e.2 = window argv options k e.1 := by
  rw [parse_ok_entries argv options p h] at he
  obtain ⟨k, hk, hek⟩ := (mem_entries_from argv options 1 e).1 he
  obtain ⟨t, ht, hf, ha⟩ := (entry_at_eq_some argv options k e).1 hek
  exact ⟨k, t, hk, ht, hf, by rw [ha, look_ahead_eq_window]⟩

/-! ## The descriptors of the result set -/

theorem entries_descriptors (argv : List String) (options : List option) :
    ∀ (n i : Nat), argv.length - i = n →
      (entries_from argv options i).map Prod.fst =
        (argv.drop i).filterMap (fun t => find_option t options) := by
  intro n
  induction n with
  | zero =>
    intro i hn
    have hd : argv.drop i = [] := List.drop_eq_nil_of_le (by omega)
    simp [entries_from, hn, hd]
  | succ n ih =>
    intro i hn
    have hi : i < argv.length := by omega
    rw [List.drop_eq_getElem_cons hi, List.filterMap_cons]
    cases hf : find_option argv[i] options with
    | none =>
      simp only []
      rw [entries_from_none argv options i (by simp [entry_at, List.getElem?_eq_getElem hi, hf])]
      exact ih (i + 1) (by omega)
    | some o =>
      simp only []
      rw [entries_from_some argv options i (o, look_ahead argv options i o)
        (by simp [entry_at, List.getElem?_eq_getElem hi, hf]), List.map_cons]
      rw [ih (i + 1) (by omega)]

theorem has_option_descriptors (p : parser) (n : String) :
    p.has_option n = p.descriptors.any (fun o => o.matches n) := by
  unfold parser.has_option parser.find parser.descriptors
  induction p.parsed_option with
  | nil => rfl
  | cons e l ih =>
    rw [List.find?_cons, List.map_cons, List.any_cons]
    cases hm : e.1.matches n with
    | true => simp
    | false => simpa using ih

theorem add_option_descriptors (p q : parser) (o : option) (v w : List String)
    (hpq : p.descriptors = q.descriptors) :
    (p.add_option o v).map parser.descriptors = (q.add_option o w).map parser.descriptors := by
  unfold parser.add_option
  rw [has_option_descriptors p, has_option_descriptors q, hpq]
  split
  · rfl
  · simp only [Option.map_some', Option.some.injEq]
    unfold parser.descriptors at hpq ⊢
    simp [hpq]

theorem add_all_descriptors (es : List (option × List String)) :
    ∀ (fs : List (option × List String)) (p q : parser), p.descriptors = q.descriptors →
      es.map Prod.fst = fs.map Prod.fst →
      (add_all p es).map parser.descriptors = (add_all q fs).map parser.descriptors := by
  induction es with
  | nil =>
    intro fs p q hpq hef
    cases fs with
    | nil => simp [add_all, hpq]
    | cons f fs => simp at hef
  | cons e es ih =>
    intro fs p q hpq hef
    cases fs with
    | nil => simp at hef
    | cons f fs =>
      simp only [List.map_cons, List.cons.injEq] at hef
      have hstep := add_option_descriptors p q e.1 e.2 f.2 hpq
      unfold add_all
      rw [← hef.1]
      cases hp : p.add_option e.1 e.2 with
      | none =>
        cases hq : q.add_option e.1 f.2 with
        | none => rfl
        | some q1 => rw [hp, hq] at hstep; simp at hstep
      | some p1 =>
        cases hq : q.add_option e.1 f.2 with
        | none => rw [hp, hq] at hstep; simp at hstep
        | some q1 =>
          rw [hp, hq] at hstep
          simp only [Option.map_some', Option.some.injEq] at hstep
          exact ih fs p1 q1 hstep hef.2

theorem parse_descriptors (argv argv1 : List String) (options : List option)
    (h : (argv.drop 1).filterMap (fun t => find_option t options) =
      (argv1.drop 1).filterMap (fun t => find_option t options)) :
    (parser.parse argv options).map parser.descriptors =
      (parser.parse argv1 options).map parser.descriptors := by
  rw [parse_eq, parse_eq]
  apply add_all_descriptors _ _ _ _ rfl
  rw [entries_descriptors argv options _ 1 rfl, entries_descriptors argv1 options _ 1 rfl, h]

theorem insert_token_descriptors (argv : List String) (options : List option) (k : Nat)
    (u : String) (hk : 1 ≤ k) (hu : find_option u options = none) :
    ((insert_token argv k u).drop 1).filterMap (fun t => find_option t options) =
      (argv.drop 1).filterMap (fun t => find_option t options) := by
  obtain ⟨j, rfl⟩ : ∃ j, k = j + 1 := ⟨k - 1, by omega⟩
  unfold insert_token
  cases argv with
  | nil => simp
  | cons a l =>
    simp only [List.take_succ_cons, List.drop_succ_cons, List.cons_append, List.drop_zero]
    rw [List.filterMap_append, List.filterMap_cons, hu]
    simp only []
    rw [← List.filterMap_append, List.take_append_drop]

/-! ## The program name -/

theorem window_cons (a b : String) (rest : List String) (options : List option) (k : Nat)
    (o : option) :
    window (a :: rest) options (k + 1) o = window (b :: rest) options (k + 1) o := by
  unfold window
  rw [List.drop_succ_cons, List.drop_succ_cons]

theorem entry_at_cons (a b : String) (rest : List String) (options : List option) (k : Nat)
    (hk : 1 ≤ k) :
    entry_at (a :: rest) options k = entry_at (b :: rest) options k := by
  obtain ⟨j, rfl⟩ : ∃ j, k = j + 1 := ⟨k - 1, by omega⟩
  unfold entry_at
  rw [List.getElem?_cons_succ, List.getElem?_cons_succ]
  cases rest[j]? with
  | none => rfl
  | some t =>
    simp only []
    congr 1
    funext o
    rw [look_ahead_eq_window, look_ahead_eq_window, window_cons a b]

theorem entries_from_cons (a b : String) (rest : List String) (options : List option) :
    entries_from (a :: rest) options 1 = entries_from (b :: rest) options 1 := by
  unfold entries_from
  simp only [List.length_cons]
  apply List.filterMap_congr
  intro k hk
  rw [List.mem_range'_1] at hk
  exact entry_at_cons a b rest options k hk.1

/-! ## Success of construction -/

theorem add_all_ok (es : List (option × List String)) :
    ∀ p : parser, registration_order (p.parsed_option ++ es) → ∃ p1, add_all p es = some p1 := by
  induction es with
  | nil =>
    intro p _
    exact ⟨p, rfl⟩
  | cons e es ih =>
    intro p hord
    have hfresh : p.has_option e.1.name = false := by
      rw [has_option_false_iff]
      intro a ha
      unfold registration_order at hord
      rw [List.pairwise_append] at hord
      exact hord.2.2 a ha e (List.mem_cons_self _ _)
    unfold add_all
    have hadd : p.add_option e.1 e.2 = some ⟨p.parsed_option ++ [e]⟩ := by
      simp [parser.add_option, hfresh]
    rw [hadd]
    apply ih
    simpa using hord

theorem entries_order (argv : List String) (options : List option) (i : Nat)
    (h : ∀ (i1 i2 : Nat) (e1 e2 : option × List String), i ≤ i1 → i1 < i2 →
      entry_at argv options i1 = some e1 → entry_at argv options i2 = some e2 →
      e1.1.matches e2.1.name = false) :
    registration_order (entries_from argv options i) := by
  unfold registration_order entries_from
  rw [List.pairwise_filterMap]
  refine (List.pairwise_lt_range' i (argv.length - i)).imp_of_mem ?_
  intro i1 i2 hi1 _ hlt e1 he1 e2 he2
  rw [List.mem_range'_1] at hi1
  exact h i1 i2 e1 e2 hi1.1 hlt he1 he2

/-! ## The scan without the cursor jump -/

theorem parse_loop_one_eq (argv : List String) (options : List option) :
    ∀ (fuel i : Nat) (p : parser), argv.length - i ≤ fuel →
      parse_loop_one argv options fuel i p = add_all p (entries_from argv options i) := by
  intro fuel
  induction fuel with
  | zero =>
    intro i p h
    have h0 : argv.length - i = 0 := by omega
    simp [parse_loop_one, entries_from, h0, add_all]
  | succ fuel ih =>
    intro i p h
    unfold parse_loop_one
    by_cases hi : i < argv.length
    · rw [if_pos hi]
      unfold parse_body_one
      rw [List.getElem?_eq_getElem hi]
      simp only []
      cases hf : find_option argv[i] options with
      | none =>
        simp only []
        rw [ih (i + 1) p (by omega),
          entries_from_none argv options i (by simp [entry_at, List.getElem?_eq_getElem hi, hf])]
      | some o =>
        simp only []
        rw [entries_from_some argv options i (o, look_ahead argv options i o)
          (by simp [entry_at, List.getElem?_eq_getElem hi, hf])]
        unfold add_all
        simp only []
        cases ha : p.add_option o (look_ahead argv options i o) with
        | none => rfl
        | some p1 =>
          simp only []
          rw [ih _ p1 (by omega)]
    · have h0 : argv.length - i = 0 := by omega
      simp [hi, entries_from, h0, add_all]

/-! ## The reference description -/

theorem parse_body_used (argv : List String) (options : List option) (i i1 : Nat)
    (p p1 : parser) (hi : i < argv.length) (h : parse_body argv options i p = some (i1, p1)) :
    i1 ≤ argv.length ∧ p1.used_tokens + i ≤ p.used_tokens + i1 := by
  unfold parse_body at h
  rw [List.getElem?_eq_getElem hi] at h
  simp only [] at h
  cases hf : find_option argv[i] options with
  | none =>
    simp only [hf, Option.some.injEq, Prod.mk.injEq] at h
    obtain ⟨h1, h2⟩ := h
    subst h1 h2
    exact ⟨by omega, by omega⟩
  | some o =>
    simp only [hf] at h
    cases ha : p.add_option o (look_ahead argv options i o) with
    | none => simp [ha] at h
    | some p2 =>
      simp only [ha, Option.some.injEq, Prod.mk.injEq] at h
      obtain ⟨h1, h2⟩ := h
      subst h1 h2
      have hlen := window_length_le_rest argv options i o
      rw [← look_ahead_eq_window] at hlen
      have hp2 := (add_option_some p p2 o _ ha).2
      refine ⟨by omega, ?_⟩
      unfold parser.used_tokens
      rw [hp2]
      simp only [List.length_append, List.map_append, List.sum_append, List.length_singleton,
        List.map_cons, List.map_nil, List.sum_cons, List.sum_nil]
      omega

theorem parse_loop_used (argv : List String) (options : List option) :
    ∀ (fuel i : Nat) (p p1 : parser), i ≤ argv.length →
      parse_loop argv options fuel i p = some p1 →
      p1.used_tokens + i ≤ p.used_tokens + argv.length := by
  intro fuel
  induction fuel with
  | zero =>
    intro i p p1 hi h
    simp only [parse_loop, Option.some.injEq] at h
    subst h
    omega
  | succ fuel ih =>
    intro i p p1 hi h
    unfold parse_loop at h
    by_cases hlt : i < argv.length
    · rw [if_pos hlt] at h
      cases hb : parse_body argv options i p with
      | none => simp [hb] at h
      | some r =>
        obtain ⟨i1, p2⟩ := r
        simp only [hb] at h
        obtain ⟨h1, h2⟩ := parse_body_used argv options i i1 p p2 hlt hb
        have h3 := ih i1 p2 p1 h1 h
        omega
    · rw [if_neg hlt] at h
      simp only [Option.some.injEq] at h
      subst h
      omega

theorem find_option_first (options pre post : List option) (t : String) (d : option)
    (hs : options = pre ++ d :: post) (hpre : ∀ d1 ∈ pre, ¬ (d1.name = t ∨ d1.short_name = t))
    (hd : d.name = t ∨ d.short_name = t) : find_option t options = some d := by
  unfold find_option
  rw [List.find?_eq_some]
  refine ⟨(matches_iff d t).2 hd, pre, post, hs, ?_⟩
  intro a ha
  cases hm : a.matches t with
  | false => rfl
  | true => exact absurd ((matches_iff a t).1 hm) (hpre a ha)

theorem look_ahead_negative (argv : List String) (options : List option) (i : Nat) (d : option)
    (hd : d.argument_count ≤ 0) : look_ahead argv options i d = [] := by
  rw [look_ahead_eq_window]
  unfold window
  have h0 : look_ahead_count i d = 0 := by
    have := look_ahead_count_le i d
    omega
  rw [h0, List.take_zero, List.takeWhile_nil]

/-! ## The claims -/

/-- C1, as amended: after a successful construction `has_option(n)` is true if
and only if some token at an index `>= 1` that the scan reaches (so one that is
not inside another option's consumed-arguments window) has, as its first match
in schema order, a descriptor whose name or short name equals `n`. -/
theorem has_option_iff_first_match (argv : List String) (options : List option) (p : parser)
    (n : String) (h : parser.parse argv options = some p) :
    p.has_option n = true ↔
      ∃ i t d, 1 ≤ i ∧ i ∈ scan_positions argv options ∧ argv[i]? = some t ∧
        find_option t options = some d ∧ (d.name = n ∨ d.short_name = n) := by
  rw [has_option_iff_mem, parse_ok_entries argv options p h]
  constructor
  · rintro ⟨e, he, hm⟩
    obtain ⟨k, hk, hek⟩ := (mem_entries_from argv options 1 e).1 he
    obtain ⟨t, ht, hf, _⟩ := (entry_at_eq_some argv options k e).1 hek
    exact ⟨k, t, e.1, hk, scan_positions_reach argv options p h k t e.1 hk ht hf, ht, hf,
      (matches_iff e.1 n).1 hm⟩
  · rintro ⟨i, t, d, hi, _, ht, hf, hm⟩
    refine ⟨(d, look_ahead argv options i d), ?_, (matches_iff d n).2 hm⟩
    exact (mem_entries_from argv options 1 _).2
      ⟨i, hi, (entry_at_eq_some argv options i _).2 ⟨t, ht, hf, rfl⟩⟩

/-- C1, witness: the schema `[A("--a", "-x"), B("--b", "-x")]` on the input
`["prog", "-x"]`, queried for `"--a"`. -/
theorem has_option_iff_first_match_witness :
    parser.parse ["prog", "-x"]
        [option.mk_name_short "--a" "-x", option.mk_name_short "--b" "-x"] =
      some ⟨[(option.mk_name_short "--a" "-x", [])]⟩ ∧
    ((⟨[(option.mk_name_short "--a" "-x", [])]⟩ : parser).has_option "--a" = true ↔
      ∃ i t d, 1 ≤ i ∧
        i ∈ scan_positions ["prog", "-x"]
          [option.mk_name_short "--a" "-x", option.mk_name_short "--b" "-x"] ∧
        ["prog", "-x"][i]? = some t ∧
        find_option t [option.mk_name_short "--a" "-x", option.mk_name_short "--b" "-x"] =
          some d ∧
        (d.name = "--a" ∨ d.short_name = "--a")) :=
  ⟨by decide, has_option_iff_first_match _ _ _ "--a" (by decide)⟩

/-- C1, counterexample to the claim as stated: with the schema
`[A("--a", "-x"), B("--b", "-x")]` and the input `["prog", "-x"]` construction
succeeds, the token `-x` at index 1 is reached by the scan and equals the short
name of `B`, whose name is `--b`, and yet `has_option("--b")` is false: the
entry belongs to `A`, the first match. -/
theorem has_option_any_match_fails :
    parser.parse ["prog", "-x"]
        [option.mk_name_short "--a" "-x", option.mk_name_short "--b" "-x"] =
      some ⟨[(option.mk_name_short "--a" "-x", [])]⟩ ∧
    ¬ ((⟨[(option.mk_name_short "--a" "-x", [])]⟩ : parser).has_option "--b" = true ↔
      ∃ d ∈ [option.mk_name_short "--a" "-x", option.mk_name_short "--b" "-x"],
        (d.name = "--b" ∨ d.short_name = "--b") ∧
        ∃ i t, 1 ≤ i ∧
          i ∈ scan_positions ["prog", "-x"]
            [option.mk_name_short "--a" "-x", option.mk_name_short "--b" "-x"] ∧
          ["prog", "-x"][i]? = some t ∧ (t = d.name ∨ t = d.short_name)) := by
  refine ⟨by decide, ?_⟩
  intro hiff
  have hfalse : (⟨[(option.mk_name_short "--a" "-x", [])]⟩ : parser).has_option "--b" = false := by
    decide
  have htrue := hiff.2 ⟨option.mk_name_short "--b" "-x", by decide, Or.inl (by decide),
    1, "-x", le_refl 1, by decide, by decide, Or.inr (by decide)⟩
  rw [hfalse] at htrue
  exact Bool.noConfusion htrue

/-- C3: when every argument count of the schema is non-negative, every entry of
a successfully constructed parser captures at most `argument_count` strings of
its descriptor; hence for every name `n` with `has_option(n)`,
`get_argument_size(n)` returns a value between `0` and the argument count of
the entry found for `n`. -/
theorem argument_count_ceiling (argv : List String) (options : List option) (p : parser)
    (hs : ∀ o ∈ options, 0 ≤ o.argument_count) (h : parser.parse argv options = some p) :
    (∀ e ∈ p.parsed_option, (e.2.length : Int) ≤ e.1.argument_count) ∧
    (∀ n, p.has_option n = true →
      ∃ e, p.find n = some e ∧ p.get_argument_size n = .ok (e.2.length : Int) ∧
        0 ≤ (e.2.length : Int) ∧ (e.2.length : Int) ≤ e.1.argument_count) := by
  have hall : ∀ e ∈ p.parsed_option, (e.2.length : Int) ≤ e.1.argument_count := by
    intro e he
    obtain ⟨k, t, _, _, hf, hw⟩ := mem_parsed_elim argv options p h e he
    have h0 := hs e.1 (find_option_mem t options e.1 hf).1
    have hl := window_length_le_count argv options k e.1
    rw [hw]
    omega
  refine ⟨hall, ?_⟩
  intro n hn
  unfold parser.has_option at hn
  cases hfind : p.find n with
  | none => simp [hfind] at hn
  | some e =>
    refine ⟨e, rfl, ?_, by omega, ?_⟩
    · simp [parser.get_argument_size, hfind]
    · apply hall
      unfold parser.find at hfind
      exact List.mem_of_find?_eq_some hfind

/-- C3, witness: the schema `[A("--a", 2), B("--b", 0)]` on the input
`["prog", "--a", "x", "--b"]`. -/
theorem argument_count_ceiling_witness :
    (∀ e ∈ (⟨[(option.mk_name_count "--a" 2, ["x"]), (option.mk_name_count "--b" 0, [])]⟩ :
        parser).parsed_option, (e.2.length : Int) ≤ e.1.argument_count) ∧
    (∀ n, (⟨[(option.mk_name_count "--a" 2, ["x"]), (option.mk_name_count "--b" 0, [])]⟩ :
        parser).has_option n = true →
      ∃ e, (⟨[(option.mk_name_count "--a" 2, ["x"]), (option.mk_name_count "--b" 0, [])]⟩ :
          parser).find n = some e ∧
        (⟨[(option.mk_name_count "--a" 2, ["x"]), (option.mk_name_count "--b" 0, [])]⟩ :
          parser).get_argument_size n = .ok (e.2.length : Int) ∧
        0 ≤ (e.2.length : Int) ∧ (e.2.length : Int) ≤ e.1.argument_count) :=
  argument_count_ceiling ["prog", "--a", "x", "--b"]
    [option.mk_name_count "--a" 2, option.mk_name_count "--b" 0]
    ⟨[(option.mk_name_count "--a" 2, ["x"]), (option.mk_name_count "--b" 0, [])]⟩
    (by decide) (by decide)

/-- C5: for every parser and every string `n`, `get_arguments(n)` fails if and
only if `has_option(n)` is false, and the exception then carries exactly `n` as
its option name; when `has_option(n)` is true it returns the captured
arguments of the first entry whose descriptor's name or short name equals `n`.
In particular, after a successful construction from a schema in which no
descriptor is named `n`, `get_arguments(n)` raises not-found carrying `n`. -/
theorem get_arguments_not_found_contract (p : parser) (n : String) :
    ((∃ ex, p.get_arguments n = .error ex) ↔ p.has_option n = false) ∧
    (∀ ex, p.get_arguments n = .error ex → ex.option_name = n) ∧
    (p.has_option n = true →
      ∃ pre e post, p.parsed_option = pre ++ e :: post ∧
        (∀ e1 ∈ pre, ¬ (e1.1.name = n ∨ e1.1.short_name = n)) ∧
        (e.1.name = n ∨ e.1.short_name = n) ∧ p.get_arguments n = .ok e.2) ∧
    (∀ argv options, parser.parse argv options = some p →
      (∀ d ∈ options, ¬ (d.name = n ∨ d.short_name = n)) →
      p.get_arguments n = .error { message := "can't find " ++ n, option_name := n }) := by
  have hnone : p.find n = none →
      p.get_arguments n = .error { message := "can't find " ++ n, option_name := n } := by
    intro hfind
    simp [parser.get_arguments, hfind]
  refine ⟨?_, ?_, ?_, ?_⟩
  · unfold parser.has_option
    cases hfind : p.find n with
    | none =>
      rw [hnone hfind]
      simp
    | some e => simp [parser.get_arguments, hfind]
  · intro ex hex
    cases hfind : p.find n with
    | none =>
      rw [hnone hfind] at hex
      cases hex
      rfl
    | some e => simp [parser.get_arguments, hfind] at hex
  · intro hn
    unfold parser.has_option at hn
    cases hfind : p.find n with
    | none => simp [hfind] at hn
    | some e =>
      have hfind1 := hfind
      unfold parser.find at hfind1
      obtain ⟨hm, pre, post, hsplit, hpre⟩ := List.find?_eq_some.1 hfind1
      refine ⟨pre, e, post, hsplit, ?_, (matches_iff e.1 n).1 hm, ?_⟩
      · intro e1 he1 hc
        have := hpre e1 he1
        rw [(matches_iff e1.1 n).2 hc] at this
        exact Bool.noConfusion this
      · simp [parser.get_arguments, hfind]
  · intro argv options hparse hschema
    apply hnone
    unfold parser.find
    rw [List.find?_eq_none]
    intro e he hm
    obtain ⟨k, t, _, _, hf, _⟩ := mem_parsed_elim argv options p hparse e he
    exact hschema e.1 (find_option_mem t options e.1 hf).1 ((matches_iff e.1 n).1 hm)

/-- C5, witness: after constructing from the schema `[A("--a", 2)]` and the
input `["prog", "--a", "x"]`, `get_arguments("--z")` raises not-found
carrying `"--z"`. -/
theorem get_arguments_not_found_contract_witness :
    (⟨[(option.mk_name_count "--a" 2, ["x"])]⟩ : parser).get_arguments "--z" =
      .error { message := "can't find --z", option_name := "--z" } :=
  (get_arguments_not_found_contract ⟨[(option.mk_name_count "--a" 2, ["x"])]⟩ "--z").2.2.2
    ["prog", "--a", "x"] [option.mk_name_count "--a" 2] (by decide) (by decide)

/-- C6, as amended: when `d` is the only descriptor of the schema whose name or
short name equals the short name `s` of `d`, and the token `s` occurs at an
index `>= 1` of an input on which construction succeeds, then `has_option` is
true for both the name and the short name of `d`, and `get_arguments` returns
the same captured arguments, those of the entry of `d`, through either. -/
theorem short_name_equivalence (argv : List String) (options : List option) (p : parser)
    (d : option) (i : Nat) (h : parser.parse argv options = some p) (hd : d ∈ options)
    (honly : ∀ d1 ∈ options, (d1.name = d.short_name ∨ d1.short_name = d.short_name) → d1 = d)
    (hi : 1 ≤ i) (ht : argv[i]? = some d.short_name) :
    p.has_option d.name = true ∧ p.has_option d.short_name = true ∧
    p.get_arguments d.name = p.get_arguments d.short_name ∧
    p.get_arguments d.name = .ok (look_ahead argv options i d) := by
  have hms : d.matches d.short_name = true := (matches_iff d d.short_name).2 (Or.inr rfl)
  have hf : find_option d.short_name options = some d := by
    cases hfo : find_option d.short_name options with
    | none =>
      unfold find_option at hfo
      rw [List.find?_eq_none] at hfo
      exact absurd hms (hfo d hd)
    | some d1 =>
      obtain ⟨hmem, hm1⟩ := find_option_mem d.short_name options d1 hfo
      rw [honly d1 hmem ((matches_iff d1 d.short_name).1 hm1)]
  have hmem := mem_parsed_of_token argv options p h i d.short_name d hi ht hf
  have hord := parse_order argv options p h
  have hfn : p.find d.name = some (d, look_ahead argv options i d) :=
    find_eq_of_mem p.parsed_option d.name _ hord hmem (matches_self d) (fun e1 _ hm => hm)
  have hfs : p.find d.short_name = some (d, look_ahead argv options i d) := by
    apply find_eq_of_mem p.parsed_option d.short_name _ hord hmem hms
    intro e1 he1 hm
    obtain ⟨k, t, _, _, hfe, _⟩ := mem_parsed_elim argv options p h e1 he1
    rw [honly e1.1 (find_option_mem t options e1.1 hfe).1 ((matches_iff e1.1 d.short_name).1 hm)]
    exact matches_self d
  refine ⟨?_, ?_, ?_, ?_⟩
  · simp [parser.has_option, hfn]
  · simp [parser.has_option, hfs]
  · simp [parser.get_arguments, hfn, hfs]
  · simp [parser.get_arguments, hfn]

/-- C6, witness: the descriptor `("--verbose", "-v")` and the input
`["prog", "-v"]`. -/
theorem short_name_equivalence_witness :
    (⟨[(option.mk_name_short "--verbose" "-v", [])]⟩ : parser).has_option "--verbose" = true ∧
    (⟨[(option.mk_name_short "--verbose" "-v", [])]⟩ : parser).has_option "-v" = true ∧
    (⟨[(option.mk_name_short "--verbose" "-v", [])]⟩ : parser).get_arguments "--verbose" =
      (⟨[(option.mk_name_short "--verbose" "-v", [])]⟩ : parser).get_arguments "-v" ∧
    (⟨[(option.mk_name_short "--verbose" "-v", [])]⟩ : parser).get_arguments "--verbose" =
      .ok (look_ahead ["prog", "-v"] [option.mk_name_short "--verbose" "-v"] 1
        (option.mk_name_short "--verbose" "-v")) :=
  short_name_equivalence ["prog", "-v"] [option.mk_name_short "--verbose" "-v"]
    ⟨[(option.mk_name_short "--verbose" "-v", [])]⟩ (option.mk_name_short "--verbose" "-v") 1
    (by decide) (by decide) (by decide) (by decide) (by decide)

/-- C6, counterexample to the claim as stated: the schema
`[D("--verbose", "-v", 0), A("--other", "-v", 1)]` contains `D`, the input
`["prog", "--other", "x", "-v"]` has the token `-v` at index 3 and construction
succeeds, yet `get_arguments("--verbose")` is the empty sequence of the entry
of `D` while `get_arguments("-v")` is `["x"]`, the arguments of the entry of
`A`, which was registered first and also answers to `-v`. -/
theorem short_name_equivalence_fails :
    parser.parse ["prog", "--other", "x", "-v"]
        [⟨"--verbose", "-v", 0⟩, ⟨"--other", "-v", 1⟩] =
      some ⟨[(⟨"--other", "-v", 1⟩, ["x"]), (⟨"--verbose", "-v", 0⟩, [])]⟩ ∧
    (⟨"--verbose", "-v", 0⟩ : option) ∈
      [(⟨"--verbose", "-v", 0⟩ : option), ⟨"--other", "-v", 1⟩] ∧
    ["prog", "--other", "x", "-v"][3]? = some "-v" ∧
    (⟨[(⟨"--other", "-v", 1⟩, ["x"]), (⟨"--verbose", "-v", 0⟩, [])]⟩ : parser).get_arguments
      "--verbose" = .ok [] ∧
    (⟨[(⟨"--other", "-v", 1⟩, ["x"]), (⟨"--verbose", "-v", 0⟩, [])]⟩ : parser).get_arguments
      "-v" = .ok ["x"] ∧
    ¬ ((⟨[(⟨"--other", "-v", 1⟩, ["x"]), (⟨"--verbose", "-v", 0⟩, [])]⟩ : parser).has_option
        "--verbose" = true ∧
      (⟨[(⟨"--other", "-v", 1⟩, ["x"]), (⟨"--verbose", "-v", 0⟩, [])]⟩ : parser).has_option
        "-v" = true ∧
      (⟨[(⟨"--other", "-v", 1⟩, ["x"]), (⟨"--verbose", "-v", 0⟩, [])]⟩ : parser).get_arguments
        "--verbose" =
      (⟨[(⟨"--other", "-v", 1⟩, ["x"]), (⟨"--verbose", "-v", 0⟩, [])]⟩ : parser).get_arguments
        "-v") := by
  refine ⟨by decide, by decide, by decide, rfl, rfl, ?_⟩
  rintro ⟨_, _, heq⟩
  have h1 : (⟨[(⟨"--other", "-v", 1⟩, ["x"]), (⟨"--verbose", "-v", 0⟩, [])]⟩ :
      parser).get_arguments "--verbose" = .ok [] := rfl
  have h2 : (⟨[(⟨"--other", "-v", 1⟩, ["x"]), (⟨"--verbose", "-v", 0⟩, [])]⟩ :
      parser).get_arguments "-v" = .ok ["x"] := rfl
  rw [h1, h2] at heq
  cases heq

/-- C7: inserting a token that matches no descriptor at an index `k >= 1` of
the input never makes construction fail (it fails after the insertion exactly
when it failed before) and never changes the value of `has_option(n)`. -/
theorem unrecognized_token_tolerance (argv : List String) (options : List option) (k : Nat)
    (u : String) (hk : 1 ≤ k) (hu : find_option u options = none) :
    (parser.parse (insert_token argv k u) options = none ↔ parser.parse argv options = none) ∧
    (∀ p, parser.parse argv options = some p →
      ∃ p1, parser.parse (insert_token argv k u) options = some p1 ∧
        ∀ n, p1.has_option n = p.has_option n) := by
  have hd := parse_descriptors (insert_token argv k u) argv options
    (insert_token_descriptors argv options k u hk hu)
  constructor
  · cases h1 : parser.parse (insert_token argv k u) options <;>
      cases h2 : parser.parse argv options <;> simp [h1, h2] at hd ⊢
  · intro p hp
    cases h1 : parser.parse (insert_token argv k u) options with
    | none => simp [h1, hp] at hd
    | some p1 =>
      refine ⟨p1, rfl, fun n => ?_⟩
      rw [h1, hp] at hd
      simp only [Option.map_some', Option.some.injEq] at hd
      rw [has_option_descriptors, has_option_descriptors, hd]

/-- C7, witness: inserting `pos1` at index 1 of `["prog", "--b", "pos2"]` gives
`["prog", "pos1", "--b", "pos2"]`, which with only `B("--b", 0)` declared
constructs without error and has `has_option("--b") == true`. -/
theorem unrecognized_token_tolerance_witness :
    insert_token ["prog", "--b", "pos2"] 1 "pos1" = ["prog", "pos1", "--b", "pos2"] ∧
    parser.parse ["prog", "pos1", "--b", "pos2"] [option.mk_name_count "--b" 0] =
      some ⟨[(option.mk_name_count "--b" 0, [])]⟩ ∧
    (⟨[(option.mk_name_count "--b" 0, [])]⟩ : parser).has_option "--b" = true ∧
    ((parser.parse (insert_token ["prog", "--b", "pos2"] 1 "pos1")
        [option.mk_name_count "--b" 0] = none ↔
      parser.parse ["prog", "--b", "pos2"] [option.mk_name_count "--b" 0] = none) ∧
    (∀ p, parser.parse ["prog", "--b", "pos2"] [option.mk_name_count "--b" 0] = some p →
      ∃ p1, parser.parse (insert_token ["prog", "--b", "pos2"] 1 "pos1")
          [option.mk_name_count "--b" 0] = some p1 ∧
        ∀ n, p1.has_option n = p.has_option n)) :=
  ⟨by decide, by decide, by decide,
    unrecognized_token_tolerance ["prog", "--b", "pos2"] [option.mk_name_count "--b" 0] 1 "pos1"
      (by decide) (by decide)⟩

/-- C8: when two tokens at indices `1 <= i1 < i2` have the same first-matching
descriptor `d`, construction fails; the failure is the assertion of
`add_option`, which returns no parser at all whenever the result set already
holds an entry of `d`, so the first entry is not overwritten and the second is
not silently dropped. -/
theorem duplicate_occurrence_fails (argv : List String) (options : List option)
    (i1 i2 : Nat) (t1 t2 : String) (d : option) (h1 : 1 ≤ i1) (h12 : i1 < i2)
    (ht1 : argv[i1]? = some t1) (ht2 : argv[i2]? = some t2)
    (hf1 : find_option t1 options = some d) (hf2 : find_option t2 options = some d) :
    parser.parse argv options = none ∧
    (∀ (p : parser) (values values1 : List String), (d, values1) ∈ p.parsed_option →
      p.add_option d values = none) := by
  refine ⟨?_, fun p values values1 hmem => add_option_of_mem p d values values1 hmem⟩
  cases hp : parser.parse argv options with
  | none => rfl
  | some p =>
    exfalso
    have hord := parse_order argv options p hp
    have hlt2 : i2 < argv.length := by
      by_contra hc
      rw [List.getElem?_eq_none (by omega)] at ht2
      exact Option.noConfusion ht2
    rw [parse_ok_entries argv options p hp,
      entries_from_split argv options 1 i2 (by omega) (by omega),
      entries_from_some argv options i2 (d, look_ahead argv options i2 d)
        ((entry_at_eq_some argv options i2 _).2 ⟨t2, ht2, hf2, rfl⟩)] at hord
    unfold registration_order at hord
    rw [List.pairwise_append] at hord
    have hmem : (d, look_ahead argv options i1 d) ∈
        (List.range' 1 (i2 - 1)).filterMap (entry_at argv options) := by
      rw [List.mem_filterMap]
      exact ⟨i1, by rw [List.mem_range'_1]; omega,
        (entry_at_eq_some argv options i1 _).2 ⟨t1, ht1, hf1, rfl⟩⟩
    have hbad := hord.2.2 _ hmem _ (List.mem_cons_self _ _)
    simp only [] at hbad
    rw [matches_self] at hbad
    exact Bool.noConfusion hbad

/-- C8, witness: `--a x --a y` with `A("--a", 1)` fails to construct. -/
theorem duplicate_occurrence_fails_witness :
    parser.parse ["prog", "--a", "x", "--a", "y"] [option.mk_name_count "--a" 1] = none ∧
    (∀ (p : parser) (values values1 : List String),
      (option.mk_name_count "--a" 1, values1) ∈ p.parsed_option →
      p.add_option (option.mk_name_count "--a" 1) values = none) :=
  duplicate_occurrence_fails ["prog", "--a", "x", "--a", "y"] [option.mk_name_count "--a" 1]
    1 3 "--a" "--a" (option.mk_name_count "--a" 1) (by decide) (by decide) (by decide)
    (by decide) (by decide) (by decide)

/-- C9: after a successful construction no two entries of the result set have
descriptors with the same name. -/
theorem unique_entry_per_name (argv : List String) (options : List option) (p : parser)
    (h : parser.parse argv options = some p) :
    p.parsed_option.Pairwise (fun e1 e2 => e1.1.name ≠ e2.1.name) := by
  have hord := parse_order argv options p h
  unfold registration_order at hord
  refine hord.imp ?_
  intro e1 e2 hm heq
  rw [← heq, matches_self] at hm
  exact Bool.noConfusion hm

/-- C9, witness: the schema `[A("--a", 2), B("--b", 0)]` on the input
`["prog", "--a", "x", "--b"]`. -/
theorem unique_entry_per_name_witness :
    (⟨[(option.mk_name_count "--a" 2, ["x"]), (option.mk_name_count "--b" 0, [])]⟩ :
      parser).parsed_option.Pairwise (fun e1 e2 => e1.1.name ≠ e2.1.name) :=
  unique_entry_per_name ["prog", "--a", "x", "--b"]
    [option.mk_name_count "--a" 2, option.mk_name_count "--b" 0]
    ⟨[(option.mk_name_count "--a" 2, ["x"]), (option.mk_name_count "--b" 0, [])]⟩ (by decide)

/-- C10: when `d1` is the first descriptor in schema order that matches the
token `t`, and `t` stands at an index `i >= 1` of an input on which
construction succeeds, the scan reaches `i`, the iteration at `i` registers
the entry of `d1` with the arguments collected under the argument count of
`d1`, that entry is in the result set, and the iteration adds no entry of any
other descriptor. -/
theorem schema_order_priority (argv : List String) (options pre post : List option)
    (p : parser) (i : Nat) (t : String) (d1 : option)
    (h : parser.parse argv options = some p) (hi : 1 ≤ i) (ht : argv[i]? = some t)
    (hs : options = pre ++ d1 :: post)
    (hpre : ∀ d ∈ pre, ¬ (d.name = t ∨ d.short_name = t))
    (hd1 : d1.name = t ∨ d1.short_name = t) :
    find_option t options = some d1 ∧
    i ∈ scan_positions argv options ∧
    (d1, look_ahead argv options i d1) ∈ p.parsed_option ∧
    (∀ q : parser, parse_body argv options i q = none ∨
      parse_body argv options i q =
        some (i + (look_ahead argv options i d1).length + 1,
          ⟨q.parsed_option ++ [(d1, look_ahead argv options i d1)]⟩)) ∧
    (∀ (q q1 : parser) (i1 : Nat) (d2 : option) (values : List String),
      parse_body argv options i q = some (i1, q1) → d2 ≠ d1 →
      (d2, values) ∈ q1.parsed_option → (d2, values) ∈ q.parsed_option) := by
  have hf : find_option t options = some d1 := by
    unfold find_option
    rw [List.find?_eq_some]
    refine ⟨(matches_iff d1 t).2 hd1, pre, post, hs, ?_⟩
    intro a ha
    cases hm : a.matches t with
    | false => rfl
    | true => exact absurd ((matches_iff a t).1 hm) (hpre a ha)
  have hbody : ∀ q : parser, parse_body argv options i q = none ∨
      parse_body argv options i q =
        some (i + (look_ahead argv options i d1).length + 1,
          ⟨q.parsed_option ++ [(d1, look_ahead argv options i d1)]⟩) := by
    intro q
    unfold parse_body
    simp only [ht, hf]
    cases ha : q.add_option d1 (look_ahead argv options i d1) with
    | none => left; rfl
    | some q1 =>
      right
      have := (add_option_some q q1 d1 _ ha).2
      cases q1
      simp only at this
      simp [this]
  refine ⟨hf, scan_positions_reach argv options p h i t d1 hi ht hf,
    mem_parsed_of_token argv options p h i t d1 hi ht hf, hbody, ?_⟩
  intro q q1 i1 d2 values hb hne hmem
  rcases hbody q with hnone | hsome
  · rw [hnone] at hb
    exact Option.noConfusion hb
  · rw [hsome] at hb
    simp only [Option.some.injEq, Prod.mk.injEq] at hb
    rw [← hb.2] at hmem
    simp only [List.mem_append, List.mem_singleton, Prod.mk.injEq] at hmem
    rcases hmem with hq | ⟨hd, _⟩
    · exact hq
    · exact absurd hd hne

/-- C10, witness: the token `-x` matches both descriptors of
`[A("--a", "-x", 1), B("--b", "-x", 0)]`; on `["prog", "-x", "y"]` the entry is
that of `A`, with the one argument `y`. -/
theorem schema_order_priority_witness :
    parser.parse ["prog", "-x", "y"] [⟨"--a", "-x", 1⟩, ⟨"--b", "-x", 0⟩] =
      some ⟨[(⟨"--a", "-x", 1⟩, ["y"])]⟩ ∧
    (find_option "-x" [⟨"--a", "-x", 1⟩, ⟨"--b", "-x", 0⟩] = some ⟨"--a", "-x", 1⟩ ∧
    1 ∈ scan_positions ["prog", "-x", "y"] [⟨"--a", "-x", 1⟩, ⟨"--b", "-x", 0⟩] ∧
    ((⟨"--a", "-x", 1⟩ : option),
        look_ahead ["prog", "-x", "y"] [⟨"--a", "-x", 1⟩, ⟨"--b", "-x", 0⟩] 1 ⟨"--a", "-x", 1⟩) ∈
      (⟨[(⟨"--a", "-x", 1⟩, ["y"])]⟩ : parser).parsed_option ∧
    (∀ q : parser,
      parse_body ["prog", "-x", "y"] [⟨"--a", "-x", 1⟩, ⟨"--b", "-x", 0⟩] 1 q = none ∨
      parse_body ["prog", "-x", "y"] [⟨"--a", "-x", 1⟩, ⟨"--b", "-x", 0⟩] 1 q =
        some (1 + (look_ahead ["prog", "-x", "y"] [⟨"--a", "-x", 1⟩, ⟨"--b", "-x", 0⟩] 1
            ⟨"--a", "-x", 1⟩).length + 1,
          ⟨q.parsed_option ++ [((⟨"--a", "-x", 1⟩ : option),
            look_ahead ["prog", "-x", "y"] [⟨"--a", "-x", 1⟩, ⟨"--b", "-x", 0⟩] 1
              ⟨"--a", "-x", 1⟩)]⟩)) ∧
    (∀ (q q1 : parser) (i1 : Nat) (d2 : option) (values : List String),
      parse_body ["prog", "-x", "y"] [⟨"--a", "-x", 1⟩, ⟨"--b", "-x", 0⟩] 1 q = some (i1, q1) →
      d2 ≠ ⟨"--a", "-x", 1⟩ →
      (d2, values) ∈ q1.parsed_option → (d2, values) ∈ q.parsed_option)) :=
  ⟨by decide,
    schema_order_priority ["prog", "-x", "y"] [⟨"--a", "-x", 1⟩, ⟨"--b", "-x", 0⟩] []
      [⟨"--b", "-x", 0⟩] ⟨[(⟨"--a", "-x", 1⟩, ["y"])]⟩ 1 "-x" ⟨"--a", "-x", 1⟩
      (by decide) (by decide) (by decide) rfl (by simp) (by decide)⟩

/-- C11: two inputs that differ only in token 0 give the same outcome of
construction, success or failure, with the same result set, so `has_option`,
`get_arguments` and `get_argument_size` agree on every name; in particular,
when no token after index 0 matches a descriptor the result set is empty,
whatever token 0 is, so a token 0 that equals the name or short name of an
option is not recognised as that option. -/
theorem program_name_skipped (a b : String) (rest : List String) (options : List option) :
    parser.parse (a :: rest) options = parser.parse (b :: rest) options ∧
    (∀ p, parser.parse (a :: rest) options = some p →
      ∃ q, parser.parse (b :: rest) options = some q ∧
        ∀ n, q.has_option n = p.has_option n ∧ q.get_arguments n = p.get_arguments n ∧
          q.get_argument_size n = p.get_argument_size n) ∧
    ((∀ t ∈ rest, find_option t options = none) →
      parser.parse (a :: rest) options = some ⟨[]⟩ ∧
      ∀ n, (⟨[]⟩ : parser).has_option n = false) := by
  have heq : parser.parse (a :: rest) options = parser.parse (b :: rest) options := by
    rw [parse_eq, parse_eq, entries_from_cons a b]
  refine ⟨heq, ?_, ?_⟩
  · intro p hp
    exact ⟨p, by rw [← heq, hp], fun n => ⟨rfl, rfl, rfl⟩⟩
  · intro hrest
    refine ⟨?_, fun n => rfl⟩
    rw [parse_eq, entries_from_nil (a :: rest) options 1 (by simpa using hrest)]
    rfl

/-- C11, witness: with the schema `[A("--a", 1)]` the inputs `["--a", "x"]` and
`["prog", "x"]` both construct to the empty result set, although token 0 of the
first is the name of `A`. -/
theorem program_name_skipped_witness :
    parser.parse ["--a", "x"] [option.mk_name_count "--a" 1] =
      parser.parse ["prog", "x"] [option.mk_name_count "--a" 1] ∧
    parser.parse ["--a", "x"] [option.mk_name_count "--a" 1] = some ⟨[]⟩ ∧
    ∀ n, (⟨[]⟩ : parser).has_option n = false :=
  ⟨(program_name_skipped "--a" "prog" ["x"] [option.mk_name_count "--a" 1]).1,
    (program_name_skipped "--a" "prog" ["x"] [option.mk_name_count "--a" 1]).2.2 (by decide)⟩

/-- C12: for every parser and every string `n`, `get_argument_size(n)` fails
exactly when `get_arguments(n)` fails, with the same exception, which carries
`n`, and otherwise returns the length, a value `>= 0`, of the sequence
`get_arguments(n)` returns. -/
theorem get_argument_size_contract (p : parser) (n : String) :
    (∀ ex, p.get_argument_size n = .error ex ↔ p.get_arguments n = .error ex) ∧
    (∀ ex, p.get_argument_size n = .error ex → ex.option_name = n) ∧
    (∀ values, p.get_arguments n = .ok values →
      p.get_argument_size n = .ok (values.length : Int) ∧ 0 ≤ (values.length : Int)) ∧
    ((∃ k, p.get_argument_size n = .ok k) ↔ ∃ values, p.get_arguments n = .ok values) := by
  have hnone : p.find n = none →
      p.get_argument_size n = .error { message := "can't find " ++ n, option_name := n } ∧
      p.get_arguments n = .error { message := "can't find " ++ n, option_name := n } := by
    intro hfind
    simp [parser.get_argument_size, parser.get_arguments, hfind]
  have hsome : ∀ e, p.find n = some e →
      p.get_argument_size n = .ok (e.2.length : Int) ∧ p.get_arguments n = .ok e.2 := by
    intro e hfind
    simp [parser.get_argument_size, parser.get_arguments, hfind]
  cases hfind : p.find n with
  | none =>
    obtain ⟨h1, h2⟩ := hnone hfind
    rw [h1, h2]
    refine ⟨fun ex => ⟨fun h => by cases h; rfl, fun h => by cases h; rfl⟩, ?_, ?_, ?_⟩
    · intro ex hex
      cases hex
      rfl
    · intro values hv
      cases hv
    · constructor
      · rintro ⟨k, hk⟩
        cases hk
      · rintro ⟨v, hv⟩
        cases hv
  | some e =>
    obtain ⟨h1, h2⟩ := hsome e hfind
    rw [h1, h2]
    refine ⟨?_, ?_, ?_, ?_⟩
    · intro ex
      constructor <;> intro hex <;> cases hex
    · intro ex hex
      cases hex
    · intro values hv
      simp only [Except.ok.injEq] at hv
      subst hv
      exact ⟨rfl, by omega⟩
    · exact ⟨fun _ => ⟨e.2, rfl⟩, fun _ => ⟨(e.2.length : Int), rfl⟩⟩

/-- C12, witness: on the result set `[(A("--a", 2), ["x"])]` the size of
`"--a"` is `1`. -/
theorem get_argument_size_contract_witness :
    (⟨[(option.mk_name_count "--a" 2, ["x"])]⟩ : parser).get_argument_size "--a" =
      .ok ((["x"] : List String).length : Int) ∧
    0 ≤ ((["x"] : List String).length : Int) :=
  (get_argument_size_contract ⟨[(option.mk_name_count "--a" 2, ["x"])]⟩ "--a").2.2.1 ["x"] rfl

/-- C13: when the names of the schema are pairwise distinct, no name of a
descriptor equals the short name of another descriptor, and no descriptor is
the first match of two tokens at indices `>= 1` of the input, construction
succeeds. -/
theorem construction_succeeds (argv : List String) (options : List option)
    (hnames : options.Pairwise (fun a b => a.name ≠ b.name))
    (hshort : ∀ a ∈ options, ∀ b ∈ options, a ≠ b → a.name ≠ b.short_name)
    (hinput : ∀ (i1 i2 : Nat) (t1 t2 : String) (d : option), 1 ≤ i1 → i1 < i2 →
      argv[i1]? = some t1 → argv[i2]? = some t2 → find_option t1 options = some d →
      find_option t2 options ≠ some d) :
    ∃ p, parser.parse argv options = some p := by
  rw [parse_eq]
  apply add_all_ok
  simp only [List.nil_append]
  apply entries_order
  intro i1 i2 e1 e2 h1 h12 he1 he2
  obtain ⟨t1, ht1, hf1, _⟩ := (entry_at_eq_some argv options i1 e1).1 he1
  obtain ⟨t2, ht2, hf2, _⟩ := (entry_at_eq_some argv options i2 e2).1 he2
  have hne : e2.1 ≠ e1.1 := by
    intro heq
    rw [heq] at hf2
    exact hinput i1 i2 t1 t2 e1.1 h1 h12 ht1 ht2 hf1 hf2
  have hm1 := (find_option_mem t1 options e1.1 hf1).1
  have hm2 := (find_option_mem t2 options e2.1 hf2).1
  have hsym : Symmetric (fun a b : option => a.name ≠ b.name) := fun a b hab => Ne.symm hab
  have hn := hnames.forall hsym hm2 hm1 hne
  have hs := hshort e2.1 hm2 e1.1 hm1 hne
  cases hm : e1.1.matches e2.1.name with
  | false => rfl
  | true =>
    rcases (matches_iff e1.1 e2.1.name).1 hm with h | h
    · exact absurd h.symm hn
    · exact absurd h.symm hs

/-- C13, witness: the schema `[A("--a", "-a", 1), B("--b", "-b", 0)]` on the
input `["prog", "-b", "--a"]`. -/
theorem construction_succeeds_witness :
    ∃ p, parser.parse ["prog", "-b", "--a"] [⟨"--a", "-a", 1⟩, ⟨"--b", "-b", 0⟩] = some p :=
  construction_succeeds ["prog", "-b", "--a"] [⟨"--a", "-a", 1⟩, ⟨"--b", "-b", 0⟩]
    (by decide) (by decide)
    (by
      intro i1 i2 t1 t2 d h1 h12 ht1 ht2 hf1 hf2
      have h2 : i2 < 3 := by
        by_contra hc
        rw [List.getElem?_eq_none (by simp; omega)] at ht2
        exact Option.noConfusion ht2
      obtain ⟨rfl, rfl⟩ : i1 = 1 ∧ i2 = 2 := by omega
      simp only [List.getElem?_cons_succ, List.getElem?_cons_zero, Option.some.injEq] at ht1 ht2
      subst ht1 ht2
      have hb : find_option "-b" [⟨"--a", "-a", 1⟩, ⟨"--b", "-b", 0⟩] =
          some ⟨"--b", "-b", 0⟩ := by decide
      have ha : find_option "--a" [⟨"--a", "-a", 1⟩, ⟨"--b", "-b", 0⟩] =
          some ⟨"--a", "-a", 1⟩ := by decide
      rw [hb] at hf1
      rw [ha] at hf2
      rw [← hf1] at hf2
      revert hf2
      decide)

/-- C14: for a `line_option` built from `(prefix, name, short_prefix,
short_name, argument_count)`, as strings or as pairs, `get_real_name()` is the
prefix followed by the name and `get_real_short_name()` is the short prefix
followed by the short name, while the five plain accessors return the values
given to the constructor; for a `line_option` built without a short name,
`get_real_short_name()` is the empty string. -/
theorem line_option_derived_names (prefix_ name short_prefix_ short_name : String)
    (argument_count : Int) :
    ( line_option.get_real_name
        (line_option.of_strings_short prefix_ name short_prefix_ short_name argument_count) =
      prefix_ ++ name) ∧
    ( line_option.get_real_short_name
        (line_option.of_strings_short prefix_ name short_prefix_ short_name argument_count) =
      short_prefix_ ++ short_name) ∧
    ( line_option.get_prefix
        (line_option.of_strings_short prefix_ name short_prefix_ short_name argument_count) =
      prefix_) ∧
    ( line_option.get_name
        (line_option.of_strings_short prefix_ name short_prefix_ short_name argument_count) =
      name) ∧
    ( line_option.get_short_prefix
        (line_option.of_strings_short prefix_ name short_prefix_ short_name argument_count) =
      short_prefix_) ∧
    ( line_option.get_short_name
        (line_option.of_strings_short prefix_ name short_prefix_ short_name argument_count) =
      short_name) ∧
    ( line_option.get_argument_count
        (line_option.of_strings_short prefix_ name short_prefix_ short_name argument_count) =
      argument_count) ∧
    ( line_option.of_pairs (prefix_, name) (short_prefix_, short_name) argument_count =
      line_option.of_strings_short prefix_ name short_prefix_ short_name argument_count) ∧
    ( line_option.get_real_short_name (line_option.of_strings prefix_ name argument_count) = "") ∧
    ( line_option.get_real_short_name (line_option.of_pair (prefix_, name) argument_count) = "") ∧
    ( line_option.get_real_name (line_option.of_strings prefix_ name argument_count) =
      prefix_ ++ name) ∧
    ( line_option.get_prefix (line_option.of_strings prefix_ name argument_count) = prefix_) ∧
    ( line_option.get_name (line_option.of_strings prefix_ name argument_count) = name) ∧
    ( line_option.get_argument_count (line_option.of_strings prefix_ name argument_count) =
      argument_count) :=
  ⟨rfl, rfl, rfl, rfl, rfl, rfl, rfl, rfl,
    (by decide : ("" : String) ++ "" = ""), (by decide : ("" : String) ++ "" = ""),
    rfl, rfl, rfl, rfl⟩

/-- C16: the scan with the cursor jump and the scan that advances the cursor
by one token per iteration give the same outcome on every schema and input,
success with the same result set or failure; every token at an index `>= 1`
that matches a descriptor is reached by the cursor of a successful scan and
recorded as an option; and the tokens an iteration jumps over match no
descriptor. -/
theorem cursor_jump_is_optimisation (argv : List String) (options : List option) :
    parser.parse_one argv options = parser.parse argv options ∧
    (∀ (p : parser) (k : Nat) (t : String) (o : option), parser.parse argv options = some p →
      1 ≤ k → argv[k]? = some t → find_option t options = some o →
      k ∈ scan_positions argv options ∧ (o, look_ahead argv options k o) ∈ p.parsed_option) ∧
    (∀ (i i1 : Nat) (q q1 : parser), parse_body argv options i q = some (i1, q1) →
      ∀ k, i < k → k < i1 → ∃ a, argv[k]? = some a ∧ find_option a options = none) := by
  refine ⟨?_, ?_, ?_⟩
  · rw [parse_eq]
    exact parse_loop_one_eq argv options argv.length 1 _ (by omega)
  · intro p k t o hp hk ht hf
    exact ⟨scan_positions_reach argv options p hp k t o hk ht hf,
      mem_parsed_of_token argv options p hp k t o hk ht hf⟩
  · intro i i1 q q1 hb
    exact (parse_body_cursor argv options i i1 q q1 hb).2

/-- C16, witness: both scans on the schema `[A("--a", 2), B("--b", 0)]` and the
input `["prog", "--a", "x", "--b"]`. -/
theorem cursor_jump_is_optimisation_witness :
    parser.parse_one ["prog", "--a", "x", "--b"]
        [option.mk_name_count "--a" 2, option.mk_name_count "--b" 0] =
      some ⟨[(option.mk_name_count "--a" 2, ["x"]), (option.mk_name_count "--b" 0, [])]⟩ ∧
    parser.parse_one ["prog", "--a", "x", "--b"]
        [option.mk_name_count "--a" 2, option.mk_name_count "--b" 0] =
      parser.parse ["prog", "--a", "x", "--b"]
        [option.mk_name_count "--a" 2, option.mk_name_count "--b" 0] :=
  ⟨by decide,
    (cursor_jump_is_optimisation ["prog", "--a", "x", "--b"]
      [option.mk_name_count "--a" 2, option.mk_name_count "--b" 0]).1⟩

/-- C17: for an input with `argc >= 1` on which construction succeeds, the
number of entries of the result set plus the total number of captured argument
strings is at most `argc - 1`. -/
theorem tokens_used_at_most_once (argv : List String) (options : List option) (p : parser)
    (hargc : 1 ≤ argv.length) (h : parser.parse argv options = some p) :
    p.parsed_option.length + (p.parsed_option.map (fun e => e.2.length)).sum ≤
      argv.length - 1 := by
  have hu := parse_loop_used argv options argv.length 1 ⟨[]⟩ p hargc h
  unfold parser.used_tokens at hu
  simp only [List.length_nil, List.map_nil, List.sum_nil] at hu
  omega

/-- C17, witness: the schema `[A("--a", 2), B("--b", 0)]` on the input
`["prog", "--a", "x", "--b"]`: two entries and one argument, of three tokens. -/
theorem tokens_used_at_most_once_witness :
    (⟨[(option.mk_name_count "--a" 2, ["x"]), (option.mk_name_count "--b" 0, [])]⟩ :
        parser).parsed_option.length +
      ((⟨[(option.mk_name_count "--a" 2, ["x"]), (option.mk_name_count "--b" 0, [])]⟩ :
        parser).parsed_option.map (fun e => e.2.length)).sum ≤
      ["prog", "--a", "x", "--b"].length - 1 :=
  tokens_used_at_most_once ["prog", "--a", "x", "--b"]
    [option.mk_name_count "--a" 2, option.mk_name_count "--b" 0]
    ⟨[(option.mk_name_count "--a" 2, ["x"]), (option.mk_name_count "--b" 0, [])]⟩
    (by decide) (by decide)

/-- C18: when `d` is the first descriptor in schema order whose name or short
name is the empty string, and an input on which construction succeeds has an
empty-string token at an index `i >= 1`, the entry of `d` is recorded for that
token, so `has_option("")` and `has_option` of the name of `d` are both true;
every option constructed without a short name has the empty short name. -/
theorem empty_token_matches (argv : List String) (options pre post : List option) (p : parser)
    (d : option) (i : Nat) (h : parser.parse argv options = some p)
    (hs : options = pre ++ d :: post)
    (hpre : ∀ d1 ∈ pre, ¬ (d1.name = "" ∨ d1.short_name = ""))
    (hd : d.name = "" ∨ d.short_name = "") (hi : 1 ≤ i) (ht : argv[i]? = some "") :
    (d, look_ahead argv options i d) ∈ p.parsed_option ∧
    p.has_option "" = true ∧ p.has_option d.name = true ∧
    (∀ (n : String) (k : Int),
      (option.mk_name_count n k).short_name = "" ∧ (option.mk_name n).short_name = "") := by
  have hf := find_option_first options pre post "" d hs hpre hd
  have hmem := mem_parsed_of_token argv options p h i "" d hi ht hf
  refine ⟨hmem, ?_, ?_, fun n k => ⟨rfl, rfl⟩⟩
  · exact (has_option_iff_mem p "").2 ⟨_, hmem, (matches_iff d "").2 hd⟩
  · exact (has_option_iff_mem p d.name).2 ⟨_, hmem, matches_self d⟩

/-- C18, witness: the schema `[A("--a", 1)]`, built without a short name, on the
input `["prog", "", "x"]`: the empty token is recorded as `A` with the
argument `x`. -/
theorem empty_token_matches_witness :
    parser.parse ["prog", "", "x"] [option.mk_name_count "--a" 1] =
      some ⟨[(option.mk_name_count "--a" 1, ["x"])]⟩ ∧
    ((option.mk_name_count "--a" 1,
        look_ahead ["prog", "", "x"] [option.mk_name_count "--a" 1] 1
          (option.mk_name_count "--a" 1)) ∈
      (⟨[(option.mk_name_count "--a" 1, ["x"])]⟩ : parser).parsed_option ∧
    (⟨[(option.mk_name_count "--a" 1, ["x"])]⟩ : parser).has_option "" = true ∧
    (⟨[(option.mk_name_count "--a" 1, ["x"])]⟩ : parser).has_option
      (option.mk_name_count "--a" 1).name = true ∧
    (∀ (n : String) (k : Int),
      (option.mk_name_count n k).short_name = "" ∧ (option.mk_name n).short_name = "")) :=
  ⟨by decide,
    empty_token_matches ["prog", "", "x"] [option.mk_name_count "--a" 1] [] []
      ⟨[(option.mk_name_count "--a" 1, ["x"])]⟩ (option.mk_name_count "--a" 1) 1
      (by decide) rfl (by simp) (by decide) (by decide) (by decide)⟩

/-- C19: for a descriptor `d` with a negative argument count and an input on
which construction succeeds, every entry recorded for `d` has an empty captured
sequence, the look-ahead of `d` is that of the same descriptor with argument
count zero, and an iteration of the scan at a token whose first match is `d`
registers `(d, [])` and moves the cursor by exactly one token. -/
theorem negative_count_like_zero (argv : List String) (options : List option) (p : parser)
    (d : option) (h : parser.parse argv options = some p) (hd : d.argument_count < 0) :
    (∀ values, (d, values) ∈ p.parsed_option → values = []) ∧
    (∀ i, look_ahead argv options i d = [] ∧
      look_ahead argv options i d =
        look_ahead argv options i { d with argument_count := 0 }) ∧
    (∀ (i i1 : Nat) (t : String) (q q1 : parser), argv[i]? = some t →
      find_option t options = some d → parse_body argv options i q = some (i1, q1) →
      i1 = i + 1 ∧ q1.parsed_option = q.parsed_option ++ [(d, [])]) := by
  have hla : ∀ i, look_ahead argv options i d = [] := fun i =>
    look_ahead_negative argv options i d (by omega)
  refine ⟨?_, ?_, ?_⟩
  · intro values hmem
    obtain ⟨k, t, _, _, _, hw⟩ := mem_parsed_elim argv options p h (d, values) hmem
    simp only [] at hw
    rw [hw, ← look_ahead_eq_window]
    exact hla k
  · intro i
    refine ⟨hla i, ?_⟩
    rw [hla i, look_ahead_negative argv options i { d with argument_count := 0 } (le_refl _)]
  · intro i i1 t q q1 ht hf hb
    unfold parse_body at hb
    simp only [ht, hf, hla i] at hb
    cases ha : q.add_option d [] with
    | none => simp [ha] at hb
    | some q2 =>
      simp only [ha, Option.some.injEq, Prod.mk.injEq, List.length_nil, Nat.add_zero] at hb
      obtain ⟨h1, h2⟩ := hb
      subst h2
      exact ⟨h1.symm, (add_option_some q q2 d [] ha).2⟩

/-- C19, witness: the schema `[A("--a", -1)]` on the input
`["prog", "--a", "x"]` records `A` with no argument. -/
theorem negative_count_like_zero_witness :
    parser.parse ["prog", "--a", "x"] [option.mk_name_count "--a" (-1)] =
      some ⟨[(option.mk_name_count "--a" (-1), [])]⟩ ∧
    ((∀ values, (option.mk_name_count "--a" (-1), values) ∈
        (⟨[(option.mk_name_count "--a" (-1), [])]⟩ : parser).parsed_option → values = []) ∧
    (∀ i, look_ahead ["prog", "--a", "x"] [option.mk_name_count "--a" (-1)] i
        (option.mk_name_count "--a" (-1)) = [] ∧
      look_ahead ["prog", "--a", "x"] [option.mk_name_count "--a" (-1)] i
        (option.mk_name_count "--a" (-1)) =
        look_ahead ["prog", "--a", "x"] [option.mk_name_count "--a" (-1)] i
          { option.mk_name_count "--a" (-1) with argument_count := 0 }) ∧
    (∀ (i i1 : Nat) (t : String) (q q1 : parser), ["prog", "--a", "x"][i]? = some t →
      find_option t [option.mk_name_count "--a" (-1)] = some (option.mk_name_count "--a" (-1)) →
      parse_body ["prog", "--a", "x"] [option.mk_name_count "--a" (-1)] i q = some (i1, q1) →
      i1 = i + 1 ∧
        q1.parsed_option = q.parsed_option ++ [(option.mk_name_count "--a" (-1), [])])) :=
  ⟨by decide,
    negative_count_like_zero ["prog", "--a", "x"] [option.mk_name_count "--a" (-1)]
      ⟨[(option.mk_name_count "--a" (-1), [])]⟩ (option.mk_name_count "--a" (-1))
      (by decide) (by decide)⟩

end commandline
